import Mathlib

/-!
Verification of the wavrider decoder (internal/decoder/decoder.go).

Shallow embedding conventions:
- Go `float64` sample values and durations are modelled as exact rationals (`ℚ`).
  All threshold comparisons in the source involve the decimal constants 0.000350
  and 0.000600; every concrete input used below produces a duration whose IEEE
  double rounds to exactly the same value as the corresponding rational, so the
  boundary behaviour shown here agrees with the compiled Go program.
- Go `byte` arithmetic (`currentByte << 1`) is modelled on `ℕ` with explicit `% 256`.
- Go slices are Lean lists; the panic of `processSamples` on an empty sample
  slice (it reads `samples[0]` unconditionally) is modelled by an `Option`
  result, `none` standing for the runtime panic.
- `processSamples` iterates over `crossings[i] - crossings[i-1]`; the embedding
  precomputes that list of consecutive differences (`diffs`) and the state
  machine consumes it, advancing one or two elements per iteration exactly as
  the Go index `i` does.
-/

set_option allowUnsafeReducibility true in
attribute [semireducible] Rat.mul Rat.inv Rat.add Rat.sub

namespace Wavrider

/-- Tone categories of a half-cycle interval (spec §3): `Short` (< 350 µs),
`Medium` (350 µs ≤ d < 600 µs), `Long` (≥ 600 µs). -/
inductive Tone where
  | Short
  | Medium
  | Long
deriving DecidableEq, Repr

/-- `ShortThreshold = 0.000350` seconds (decoder.go line 144). -/
def ShortThreshold : ℚ := 350 / 1000000

/-- `LongThreshold = 0.000600` seconds (decoder.go line 145). -/
def LongThreshold : ℚ := 600 / 1000000

/-- Duration in seconds of an interval of `d` samples at rate `rate`:
`float64(durationSamples) / float64(sampleRate)` (decoder.go lines 155-156, 218-219). -/
def dur (rate : ℕ) (d : ℤ) : ℚ := (d : ℚ) / (rate : ℚ)

/-- The classification structure of decoder.go lines 222-229: `isShort` when
below `ShortThreshold`, else `Medium` when below `LongThreshold`, else
`isHeader` (the `Long` category). -/
def classify (d : ℚ) : Tone :=
  if d < ShortThreshold then Tone.Short
  else if d < LongThreshold then Tone.Medium
  else Tone.Long

/-- Demodulator states (decoder.go lines 131-135). -/
inductive DState where
  | FindHeader
  | FindSync
  | ReadData
deriving DecidableEq, Repr

/-- The mutable locals of `processSamples` threaded through both loops:
`state`, `headerCount`, `currentByte`, `bitCount`, `decodedBytes`
(decoder.go lines 137-152). -/
structure DemodSt where
  state : DState
  headerCount : ℕ
  currentByte : ℕ
  bitCount : ℕ
  output : List ℕ
deriving DecidableEq, Repr

/-- Zero-crossing scan (decoder.go lines 121-126): records index `i` whenever
the sign (negative vs non-negative) differs from the previous sample's. -/
def crossLoop (prev : ℚ) (i : ℕ) : List ℚ → List ℕ
  | [] => []
  | s :: rest =>
    if (prev < 0 ∧ 0 ≤ s) ∨ (0 ≤ prev ∧ s < 0) then
      i :: crossLoop s (i + 1) rest
    else
      crossLoop s (i + 1) rest

/-- Crossing Index Sequence (decoder.go lines 118-126). The Go function reads
`samples[0]` before the loop, which panics on an empty slice; that panic is
modelled as `none`. -/
def crossingIndices : List ℚ → Option (List ℕ)
  | [] => none
  | s :: rest => some (crossLoop s 0 (s :: rest))

/-- Consecutive differences `crossings[i] - crossings[i-1]` for `i = 1, ...`
(decoder.go lines 155 and 218, as Go `int` subtraction). -/
def diffs : List ℕ → List ℤ
  | a :: b :: rest => ((b : ℤ) - (a : ℤ)) :: diffs (b :: rest)
  | _ => []

/-- The abandoned first pass of `processSamples` (decoder.go lines 154-210).
Its `StateReadData` case is empty; `StateFindHeader` counts only `isHeader`
(Long) intervals and uses the threshold 100. -/
def firstLoop (rate : ℕ) : List ℤ → DemodSt → DemodSt
  | [], st => st
  | d :: rest, st =>
    let st1 :=
      match st.state with
      | DState.FindHeader =>
        if ¬ dur rate d < ShortThreshold ∧ ¬ dur rate d < LongThreshold then
          { st with headerCount := st.headerCount + 1 }
        else if 100 < st.headerCount ∧ dur rate d < ShortThreshold then
          { st with state := DState.FindSync }
        else
          { st with headerCount := 0 }
      | DState.FindSync =>
        if dur rate d < ShortThreshold then
          { st with state := DState.ReadData, currentByte := 0, bitCount := 0 }
        else
          { st with state := DState.FindHeader, headerCount := 0 }
      | DState.ReadData => st
    firstLoop rate rest st1

/-- The live second pass of `processSamples` (decoder.go lines 217-320).
Consumes the interval list one element per iteration, except that the sync
lookahead and the `ReadData` pair read consume a second element (`i++`).
- `FindHeader` (lines 232-257): increments `headerCount` on `isHeader` or on a
  duration strictly between the two thresholds; on a `Short` after more than 50
  header intervals it peeks at the next interval and enters `ReadData` when
  that one is also `Short`; otherwise resets `headerCount`.
- `ReadData` (lines 258-319): reads a pair `(dur1, dur2)`; `Short,Short` shifts
  in a 0 bit, `Medium,Medium` shifts in a 1 bit, a duration strictly above
  `LongThreshold` returns to `FindHeader`, anything else is dropped; a full
  byte (`bitCount == 8`) is appended and the accumulator reset.
The singleton case spells out the final iteration, in which `i >= len` stops
both the sync lookahead and the `ReadData` pair read, so the loop exits with
only that branch's effect applied. -/
def demodLoop (rate : ℕ) : List ℤ → DemodSt → DemodSt
  | [], st => st
  | [d], st =>
    match st.state with
    | DState.FindHeader =>
      if (¬ dur rate d < ShortThreshold ∧ ¬ dur rate d < LongThreshold) ∨
          (ShortThreshold < dur rate d ∧ dur rate d < LongThreshold) then
        { st with headerCount := st.headerCount + 1 }
      else if 50 < st.headerCount ∧ dur rate d < ShortThreshold then
        st
      else
        { st with headerCount := 0 }
    | DState.FindSync => st
    | DState.ReadData => st
  | d :: d2 :: rest2, st =>
    match st.state with
    | DState.FindHeader =>
      if (¬ dur rate d < ShortThreshold ∧ ¬ dur rate d < LongThreshold) ∨
          (ShortThreshold < dur rate d ∧ dur rate d < LongThreshold) then
        demodLoop rate (d2 :: rest2) { st with headerCount := st.headerCount + 1 }
      else if 50 < st.headerCount ∧ dur rate d < ShortThreshold then
        (if dur rate d2 < ShortThreshold then
          demodLoop rate rest2
            { st with state := DState.ReadData, currentByte := 0, bitCount := 0 }
        else
          demodLoop rate (d2 :: rest2)
            { st with state := DState.FindHeader, headerCount := 0 })
      else
        demodLoop rate (d2 :: rest2) { st with headerCount := 0 }
    | DState.FindSync => demodLoop rate (d2 :: rest2) st
    | DState.ReadData =>
      let st1 :=
        if dur rate d < ShortThreshold ∧ dur rate d2 < ShortThreshold then
          { st with currentByte := st.currentByte * 2 % 256, bitCount := st.bitCount + 1 }
        else if (ShortThreshold ≤ dur rate d ∧ dur rate d < LongThreshold) ∧
            (ShortThreshold ≤ dur rate d2 ∧ dur rate d2 < LongThreshold) then
          { st with currentByte := (st.currentByte * 2 + 1) % 256, bitCount := st.bitCount + 1 }
        else if LongThreshold < dur rate d ∨ LongThreshold < dur rate d2 then
          { st with state := DState.FindHeader, headerCount := 0 }
        else st
      let st2 :=
        if st1.bitCount = 8 then
          { st1 with output := st1.output ++ [st1.currentByte], currentByte := 0, bitCount := 0 }
        else st1
      demodLoop rate rest2 st2

/-- Initial demodulator state (decoder.go lines 137-140, 152). -/
def initSt : DemodSt := ⟨DState.FindHeader, 0, 0, 0, []⟩

/-- A demodulator run on an interval list from the initial state. -/
def demodRun (rate : ℕ) (ds : List ℤ) : DemodSt := demodLoop rate ds initSt

/-- Full `processSamples` (decoder.go lines 117-323): zero-crossing scan, the
dead first pass (whose `state`/`headerCount` results are overwritten at lines
213-215 but whose `currentByte`/`bitCount`/`decodedBytes` flow on), then the
live pass. `none` models the panic on an empty sample slice. -/
def processSamplesO (samples : List ℚ) (rate : ℕ) : Option (List ℕ) :=
  match crossingIndices samples with
  | none => none
  | some cs =>
    let ds := diffs cs
    let st1 := firstLoop rate ds initSt
    some ((demodLoop rate ds
      ⟨DState.FindHeader, 0, st1.currentByte, st1.bitCount, st1.output⟩).output)

/-- The single-pass variant of `processSamples`: only the live second loop,
run from a fresh initial state. -/
def processSamplesSingle (samples : List ℚ) (rate : ℕ) : Option (List ℕ) :=
  match crossingIndices samples with
  | none => none
  | some cs => some ((demodRun rate (diffs cs)).output)

/-- Running the pipeline twice on the same retained input, as a pair of
results (one per run). -/
def runTwice (samples : List ℚ) (rate : ℕ) : Option (List ℕ) × Option (List ℕ) :=
  (processSamplesO samples rate, processSamplesO samples rate)

/-- Interval lengths (in samples, at 10000 samples/s) for claim C1's synthetic
sequence: 60 Medium half-cycles (400 µs), the Short,Short sync (200 µs each),
then the 8 bit pairs of `10110010` (Medium,Medium = 1, Short,Short = 0). -/
def C1durations : List ℕ :=
  List.replicate 60 4 ++ [2, 2] ++ [4, 4, 2, 2, 4, 4, 4, 4, 2, 2, 2, 2, 4, 4, 2, 2]

/-- The crossing index sequence whose consecutive differences are
`C1durations`, starting at index 0. -/
def C1crossings : List ℕ := List.scanl (· + ·) 0 C1durations

/-- The tone list that claim C1 asks the intervals of `C1crossings` to
classify as. -/
def C1tones : List Tone :=
  List.replicate 60 Tone.Medium ++ [Tone.Short, Tone.Short] ++
    [Tone.Medium, Tone.Medium, Tone.Short, Tone.Short,
     Tone.Medium, Tone.Medium, Tone.Medium, Tone.Medium,
     Tone.Short, Tone.Short, Tone.Short, Tone.Short,
     Tone.Medium, Tone.Medium, Tone.Short, Tone.Short]

/-- A pair of intervals encoding one data bit, in the claim's terms: both
classify `Medium` for a 1 bit, both classify `Short` for a 0 bit (spec §4.4,
decoder.go lines 278-279). -/
def EncodesBit (rate : ℕ) (b : Bool) (d1 d2 : ℤ) : Prop :=
  match b with
  | false => classify (dur rate d1) = Tone.Short ∧ classify (dur rate d2) = Tone.Short
  | true => classify (dur rate d1) = Tone.Medium ∧ classify (dur rate d2) = Tone.Medium

instance (rate : ℕ) (b : Bool) (d1 d2 : ℤ) : Decidable (EncodesBit rate b d1 d2) :=
  match b with
  | false => inferInstanceAs (Decidable (_ ∧ _))
  | true => inferInstanceAs (Decidable (_ ∧ _))


/-- Channel-0 selection within one buffer: the Go loop
`for i := 0; i < len(buf); i += int(header.NumChannels)` keeps indices
0, nc, 2nc, ... (decoder.go lines 79 and 96). The Go loop does not terminate
when the channel count is 0; this function then steps by 1. -/
def pickEvery (nc : ℕ) : List α → List α
  | [] => []
  | x :: xs => x :: pickEvery nc (xs.drop (nc - 1))
termination_by l => l.length
decreasing_by simp; omega

/-- Little-endian byte pairs decoded as signed 16-bit values, as
`binary.Read(f, binary.LittleEndian, &buf)` does for a `[]int16` buffer
(decoder.go line 94). A trailing odd byte is ignored. -/
def toInt16 : List ℕ → List ℤ
  | lo :: hi :: rest =>
    (if lo + 256 * hi < 32768 then (lo + 256 * hi : ℤ) else (lo + 256 * hi : ℤ) - 65536) ::
      toInt16 rest
  | _ => []

/-- The 8-bit sample path (decoder.go lines 73-88): data is consumed in
chunks of up to 1024 bytes (`f.Read` fills what it can, so a trailing partial
chunk is still processed), channel 0 of each chunk is kept, and each byte is
normalized as `(raw - 128) / 128`. -/
def extract8 (nc : ℕ) (bytes : List ℕ) : List ℚ :=
  if bytes = [] then []
  else
    (pickEvery nc (bytes.take 1024)).map (fun v => ((v : ℚ) - 128) / 128) ++
      extract8 nc (bytes.drop 1024)
termination_by bytes.length
decreasing_by
  simp
  rename_i hne
  have : bytes.length ≠ 0 := fun hz => hne (List.length_eq_zero.mp hz)
  omega

/-- The 16-bit sample path (decoder.go lines 89-106): `binary.Read` must fill
a whole fixed 1024-value (2048-byte) buffer; a trailing block that cannot fill
it fails the read, breaks the loop, and contributes no samples. Channel 0 of
each complete block is kept and normalized as `raw / 32768`. -/
def extract16 (nc : ℕ) (bytes : List ℕ) : List ℚ :=
  if bytes.length < 2048 then []
  else
    (pickEvery nc (toInt16 (bytes.take 2048))).map (fun v => (v : ℚ) / 32768) ++
      extract16 nc (bytes.drop 2048)
termination_by bytes.length
decreasing_by simp; omega

/-- The `Decode` entry point after container parsing (decoder.go lines
73-114): dispatch on bits-per-sample, extract the Sample Stream, then run
`processSamples`. `some (Except.error ...)` is the Go `(nil, err)` return for
an unsupported sample width — no byte output accompanies it; the outer `none`
is the `processSamples` panic on an empty sample stream. -/
def decode (bps nc rate : ℕ) (bytes : List ℕ) : Option (Except String (List ℕ)) :=
  if bps = 8 then (processSamplesO (extract8 nc bytes) rate).map Except.ok
  else if bps = 16 then (processSamplesO (extract16 nc bytes) rate).map Except.ok
  else some (Except.error ("unsupported bits per sample: " ++ toString bps))

end Wavrider

namespace Wavrider

/-- Claim C1, counterexample: on the crossing sequence whose intervals
classify exactly as the claim demands (60 Medium, Short Short sync, then the
pairs encoding `10110010`), the demodulator's final state is `ReadData`, not
`FindHeader` — after completing a byte the live loop stays in `ReadData`. -/
theorem C1_counterexample :
    (diffs C1crossings).map (fun d => classify (dur 10000 d)) = C1tones ∧
    (demodRun 10000 (diffs C1crossings)).state ≠ DState.FindHeader := by
  decide

/-- Claim C1, amended: on that crossing sequence the demodulator emits exactly
one byte, `0xB2`, and its final state is `ReadData` (the machine stays in
`ReadData` after completing a byte; it returns to `FindHeader` only on a Long
or invalid pair, which this sequence does not contain). -/
theorem C1_amended :
    (diffs C1crossings).map (fun d => classify (dur 10000 d)) = C1tones ∧
    (demodRun 10000 (diffs C1crossings)).output = [0xB2] ∧
    (demodRun 10000 (diffs C1crossings)).state = DState.ReadData := by
  decide

/-- Claim C2: the spec says a sample stream with fewer than 2 samples yields
an empty crossing sequence and an empty output, with no failure. The code
reads `samples[0]` before its loop, so the empty stream panics (modelled as
`none`); a single-sample stream does return an empty output. -/
theorem C2_lt_two_samples :
    processSamplesO ([] : List ℚ) 44100 = none ∧
    (∀ q : ℚ, processSamplesO [q] 44100 = some []) := by
  refine ⟨rfl, fun q => ?_⟩
  have hcross : crossingIndices [q] = some [] := by
    have hc : ¬ ((q < 0 ∧ 0 ≤ q) ∨ (0 ≤ q ∧ q < 0)) := by
      rcases lt_or_le q 0 with h | h
      · rintro (⟨-, h2⟩ | ⟨h2, -⟩) <;> exact absurd h2 (not_le.mpr h)
      · rintro (⟨h2, -⟩ | ⟨-, h2⟩) <;> exact absurd h2 (not_lt.mpr h)
    simp [crossingIndices, crossLoop, hc]
  simp [processSamplesO, hcross, diffs, firstLoop, demodLoop, initSt]

/-- Claim C5: the interval classification bands. For any adjacent crossing
pair `(a, b)` and positive sample rate, the duration `(b - a) / rate`
classifies as `Short` exactly when strictly below 350 µs, as `Medium` exactly
when at least 350 µs and strictly below 600 µs, and as `Long` exactly when at
least 600 µs. -/
theorem C5_classification_bands (a b : ℤ) (rate : ℕ) (hrate : 0 < rate) :
    (classify (dur rate (b - a)) = Tone.Short ↔ dur rate (b - a) < 350 / 1000000) ∧
    (classify (dur rate (b - a)) = Tone.Medium ↔
      350 / 1000000 ≤ dur rate (b - a) ∧ dur rate (b - a) < 600 / 1000000) ∧
    (classify (dur rate (b - a)) = Tone.Long ↔ 600 / 1000000 ≤ dur rate (b - a)) := by
  unfold classify ShortThreshold LongThreshold
  split_ifs with h1 h2 <;>
    simp_all <;> first | linarith | (constructor <;> intro <;> linarith)

/-- Claim C5 witness: the bands evaluated on the concrete crossing pair
`(0, 4)` at 10000 samples/s (a 400 µs interval). -/
theorem C5_classification_bands_witness :
    0 < 10000 ∧
    ((classify (dur 10000 ((4 : ℤ) - 0)) = Tone.Short ↔
        dur 10000 ((4 : ℤ) - 0) < 350 / 1000000) ∧
     (classify (dur 10000 ((4 : ℤ) - 0)) = Tone.Medium ↔
        350 / 1000000 ≤ dur 10000 ((4 : ℤ) - 0) ∧
          dur 10000 ((4 : ℤ) - 0) < 600 / 1000000) ∧
     (classify (dur 10000 ((4 : ℤ) - 0)) = Tone.Long ↔
        600 / 1000000 ≤ dur 10000 ((4 : ℤ) - 0))) :=
  ⟨by decide, C5_classification_bands 0 4 10000 (by decide)⟩

/-- Claim C3, counterexample: an interval of exactly 350 µs (7 samples at
20000 samples/s) classifies as `Medium`, yet in `FindHeader` with a running
counter of 55 the code resets the counter to 0 instead of incrementing it:
the code's increment condition is `durationSec > ShortThreshold`, strict. -/
theorem C3_counterexample :
    classify (dur 20000 7) = Tone.Medium ∧
    demodLoop 20000 [7] ⟨DState.FindHeader, 55, 0, 0, []⟩ =
      ⟨DState.FindHeader, 0, 0, 0, []⟩ := by
  decide

/-- Claim C3, amended: in state `FindHeader`, every consumed interval whose
duration is strictly greater than 350 µs (`Medium` above the band's lower
edge, or `Long`) increments the header counter by one, leaving the state and
every other component untouched; an interval of exactly 350 µs instead resets
the counter. -/
theorem C3_amended (rate : ℕ) (d : ℤ) (rest : List ℤ) (st : DemodSt)
    (hs : st.state = DState.FindHeader)
    (hd : ShortThreshold < dur rate d) :
    demodLoop rate (d :: rest) st =
      demodLoop rate rest { st with headerCount := st.headerCount + 1 } := by
  obtain ⟨s, hc, cb, bc, out⟩ := st
  simp only at hs
  subst hs
  have hcond : (¬ dur rate d < ShortThreshold ∧ ¬ dur rate d < LongThreshold) ∨
      (ShortThreshold < dur rate d ∧ dur rate d < LongThreshold) := by
    rcases lt_or_le (dur rate d) LongThreshold with h | h
    · exact Or.inr ⟨hd, h⟩
    · exact Or.inl ⟨not_lt.mpr hd.le, not_lt.mpr h⟩
  cases rest with
  | nil =>
    simp only [demodLoop]
    rw [if_pos hcond]
  | cons d2 rest2 =>
    simp only [demodLoop]
    rw [if_pos hcond]

/-- Claim C3 witness: a 400 µs interval (4 samples at 10000 samples/s) in
`FindHeader` with counter 3 increments the counter to 4. -/
theorem C3_amended_witness :
    ShortThreshold < dur 10000 4 ∧
    demodLoop 10000 [4] ⟨DState.FindHeader, 3, 0, 0, []⟩ =
      demodLoop 10000 [] ⟨DState.FindHeader, 4, 0, 0, []⟩ :=
  ⟨by decide, C3_amended 10000 4 [] ⟨DState.FindHeader, 3, 0, 0, []⟩ rfl (by decide)⟩

/-- Claim C4, counterexample: a `ReadData` pair whose first half-cycle lasts
exactly 600 µs (3 samples at 5000 samples/s) classifies as `Long`, yet the
demodulator does not treat it as an end-of-data marker: the code's test is
`dur1 > LongThreshold || dur2 > LongThreshold`, strict, so the pair is
silently dropped and the machine stays in `ReadData` with its partial byte
and header counter intact. -/
theorem C4_counterexample :
    classify (dur 5000 3) = Tone.Long ∧
    demodLoop 5000 [3, 1] ⟨DState.ReadData, 7, 5, 3, []⟩ =
      ⟨DState.ReadData, 7, 5, 3, []⟩ := by
  decide

/-- Helper: from a `FindHeader` state, the rest of the run's output does not
depend on the residual `currentByte`/`bitCount`: the `FindHeader` branches
never read them, and entering `ReadData` resets both. -/
theorem demod_output_indep (rate : ℕ) :
    ∀ (n : ℕ) (l : List ℤ), l.length ≤ n →
      ∀ (hc cb bc cb' bc' : ℕ) (out : List ℕ),
      (demodLoop rate l ⟨DState.FindHeader, hc, cb, bc, out⟩).output =
        (demodLoop rate l ⟨DState.FindHeader, hc, cb', bc', out⟩).output := by
  intro n
  induction n with
  | zero =>
    intro l hl hc cb bc cb' bc' out
    have hnil : l = [] := List.length_eq_zero.mp (Nat.le_zero.mp hl)
    subst hnil; rfl
  | succ n ih =>
    intro l hl hc cb bc cb' bc' out
    rcases l with _ | ⟨d, _ | ⟨d2, rest2⟩⟩
    · rfl
    · simp only [demodLoop]
      split_ifs <;> rfl
    · simp only [demodLoop]
      have h2 : (d2 :: rest2).length ≤ n := by simp at hl ⊢; omega
      split_ifs with hA hB hC
      · exact ih (d2 :: rest2) h2 (hc + 1) cb bc cb' bc' out
      · rfl
      · exact ih (d2 :: rest2) h2 0 cb bc cb' bc' out
      · exact ih (d2 :: rest2) h2 0 cb bc cb' bc' out

/-- Claim C4, amended: in state `ReadData`, a consumed pair in which at least
one duration is strictly greater than 600 µs is treated as the end-of-data
marker: the header counter is reset to 0, the state returns to `FindHeader`,
and the partial byte in the accumulator is discarded — the remaining run's
output is the same as if the accumulator had been zeroed, so the partial byte
is never emitted. A duration of exactly 600 µs (which classifies as `Long`)
does not trigger the marker. -/
theorem C4_amended (rate : ℕ) (d1 d2 : ℤ) (rest : List ℤ) (st : DemodSt)
    (hs : st.state = DState.ReadData) (hbc : st.bitCount ≠ 8)
    (hlong : LongThreshold < dur rate d1 ∨ LongThreshold < dur rate d2) :
    demodLoop rate (d1 :: d2 :: rest) st =
      demodLoop rate rest { st with state := DState.FindHeader, headerCount := 0 } ∧
    (demodLoop rate rest { st with state := DState.FindHeader, headerCount := 0 }).output =
      (demodLoop rate rest
        { st with state := DState.FindHeader, headerCount := 0, currentByte := 0, bitCount := 0 }).output := by
  obtain ⟨s, hc, cb, bc, out⟩ := st
  simp only at hs hbc
  subst hs
  have hnotzero : ¬ (dur rate d1 < ShortThreshold ∧ dur rate d2 < ShortThreshold) := by
    have hSL : ShortThreshold < LongThreshold := by decide
    rcases hlong with h | h
    · rintro ⟨h1, -⟩; linarith
    · rintro ⟨-, h2⟩; linarith
  have hnotone : ¬ ((ShortThreshold ≤ dur rate d1 ∧ dur rate d1 < LongThreshold) ∧
      (ShortThreshold ≤ dur rate d2 ∧ dur rate d2 < LongThreshold)) := by
    rcases hlong with h | h
    · rintro ⟨⟨-, h1⟩, -⟩; linarith
    · rintro ⟨-, ⟨-, h2⟩⟩; linarith
  constructor
  · simp only [demodLoop]
    rw [if_neg hnotzero, if_neg hnotone, if_pos hlong]
    simp only [if_neg hbc]
  · exact demod_output_indep rate rest.length rest le_rfl 0 cb bc 0 0 out

/-- Claim C4 witness: a 1 ms half-cycle (1 sample at 1000 samples/s) seen
mid-byte in `ReadData` sends the machine back to `FindHeader` with the
counter cleared and the partial byte `5` (3 bits) discarded. -/
theorem C4_amended_witness :
    (⟨DState.ReadData, 9, 5, 3, [7]⟩ : DemodSt).state = DState.ReadData ∧
    (⟨DState.ReadData, 9, 5, 3, [7]⟩ : DemodSt).bitCount ≠ 8 ∧
    (LongThreshold < dur 1000 1 ∨ LongThreshold < dur 1000 1) ∧
    (demodLoop 1000 [1, 1] ⟨DState.ReadData, 9, 5, 3, [7]⟩ =
      demodLoop 1000 [] ⟨DState.FindHeader, 0, 5, 3, [7]⟩ ∧
     (demodLoop 1000 [] ⟨DState.FindHeader, 0, 5, 3, [7]⟩).output =
      (demodLoop 1000 [] ⟨DState.FindHeader, 0, 0, 0, [7]⟩).output) :=
  ⟨rfl, by decide, Or.inl (by decide),
    C4_amended 1000 1 1 [] ⟨DState.ReadData, 9, 5, 3, [7]⟩ rfl (by decide)
      (Or.inl (by decide))⟩

/-- Helper: the dead first pass never touches the bit accumulator, the bit
count or the output list (its `FindSync` case only ever re-zeroes the first
two), so starting from the initial state they stay `0`, `0`, `[]`. -/
theorem firstLoop_preserves (rate : ℕ) :
    ∀ (l : List ℤ) (st : DemodSt), st.currentByte = 0 → st.bitCount = 0 → st.output = [] →
      (firstLoop rate l st).currentByte = 0 ∧ (firstLoop rate l st).bitCount = 0 ∧
        (firstLoop rate l st).output = [] := by
  intro l
  induction l with
  | nil => intro st h1 h2 h3; exact ⟨h1, h2, h3⟩
  | cons d rest ih =>
    intro st h1 h2 h3
    obtain ⟨s, hc, cb, bc, out⟩ := st
    simp only at h1 h2 h3
    subst h1; subst h2; subst h3
    cases s <;> simp only [firstLoop] <;> (try split_ifs) <;> exact ih _ rfl rfl rfl

/-- Claim C7: the first pass over the crossing sequence is dead code. Its
`state` and `headerCount` results are overwritten before the second pass, and
the components that do flow on (`currentByte`, `bitCount`, `decodedBytes`)
are provably still `0`, `0`, `[]`, so `processSamples` with the first pass
equals the single-pass (second-loop-only) version on every input. -/
theorem C7_first_pass_dead (samples : List ℚ) (rate : ℕ) :
    processSamplesO samples rate = processSamplesSingle samples rate := by
  cases samples with
  | nil => rfl
  | cons s rest =>
    simp only [processSamplesO, processSamplesSingle, crossingIndices]
    obtain ⟨h1, h2, h3⟩ :=
      firstLoop_preserves rate (diffs (crossLoop s 0 (s :: rest))) initSt rfl rfl rfl
    rw [h1, h2, h3]
    rfl

/-- Helper: `classify` is `Short` exactly when strictly below 350 µs. -/
theorem classify_short_iff (d : ℚ) : classify d = Tone.Short ↔ d < ShortThreshold := by
  unfold classify
  split_ifs with g1 g2
  · simp [g1]
  · simp [g1]
  · simp [g1]

/-- Helper: `classify` is `Medium` exactly on [350 µs, 600 µs). -/
theorem classify_medium_iff (d : ℚ) :
    classify d = Tone.Medium ↔ ShortThreshold ≤ d ∧ d < LongThreshold := by
  unfold classify
  split_ifs with g1 g2
  · simp [not_le.mpr g1]
  · simp [not_lt.mp g1, g2]
  · simp [g2]

/-- Helper: `classify` is `Long` exactly at or above 600 µs. -/
theorem classify_long_iff (d : ℚ) : classify d = Tone.Long ↔ LongThreshold ≤ d := by
  have hSL : ShortThreshold < LongThreshold := by decide
  unfold classify
  split_ifs with g1 g2
  · simp [not_le.mpr (g1.trans hSL)]
  · simp [not_le.mpr g2]
  · simp [not_lt.mp g2]

/-- Helper for claim C6: on any interval list, a state whose bit count is
below 8 evolves to one whose bit count is below 8, and the output only grows
by appended bytes. Strong induction on the list length. -/
theorem demod_inv (rate : ℕ) :
    ∀ (n : ℕ) (l : List ℤ), l.length ≤ n → ∀ (st : DemodSt), st.bitCount < 8 →
      (demodLoop rate l st).bitCount < 8 ∧
        ∃ t, (demodLoop rate l st).output = st.output ++ t := by
  intro n
  induction n with
  | zero =>
    intro l hl st h
    have hnil : l = [] := List.length_eq_zero.mp (Nat.le_zero.mp hl)
    subst hnil
    exact ⟨h, [], by simp [demodLoop]⟩
  | succ n ih =>
    intro l hl st h
    rcases l with _ | ⟨d, _ | ⟨d2, rest2⟩⟩
    · exact ⟨h, [], by simp [demodLoop]⟩
    · obtain ⟨s, hc, cb, bc, out⟩ := st
      simp only at h
      cases s <;> simp only [demodLoop] <;> (try split_ifs) <;>
        exact ⟨by simpa using h, [], by simp⟩
    · obtain ⟨s, hc, cb, bc, out⟩ := st
      simp only at h
      have hlen : (d2 :: rest2).length ≤ n := by simp at hl ⊢; omega
      have hlen2 : rest2.length ≤ n := by simp at hl ⊢; omega
      cases s with
      | FindHeader =>
        simp only [demodLoop]
        split_ifs with hA hB hC
        · exact ih _ hlen _ (by simpa using h)
        · exact ih _ hlen2 _ (by simp)
        · exact ih _ hlen _ (by simpa using h)
        · exact ih _ hlen _ (by simpa using h)
      | FindSync =>
        simp only [demodLoop]
        exact ih _ hlen _ (by simpa using h)
      | ReadData =>
        simp only [demodLoop]
        by_cases h1 : dur rate d < ShortThreshold ∧ dur rate d2 < ShortThreshold
        · rw [if_pos h1]
          simp only
          by_cases h8 : bc + 1 = 8
          · rw [if_pos h8]
            obtain ⟨hb, t, ht⟩ := ih rest2 hlen2 ⟨DState.ReadData, hc, 0, 0, out ++ [cb * 2 % 256]⟩ (by simp)
            exact ⟨hb, [cb * 2 % 256] ++ t, by simpa using ht⟩
          · rw [if_neg h8]
            obtain ⟨hb, t, ht⟩ := ih rest2 hlen2 ⟨DState.ReadData, hc, cb * 2 % 256, bc + 1, out⟩ (by show bc + 1 < 8; omega)
            exact ⟨hb, t, ht⟩
        · rw [if_neg h1]
          by_cases h2 : (ShortThreshold ≤ dur rate d ∧ dur rate d < LongThreshold) ∧
              (ShortThreshold ≤ dur rate d2 ∧ dur rate d2 < LongThreshold)
          · rw [if_pos h2]
            simp only
            by_cases h8 : bc + 1 = 8
            · rw [if_pos h8]
              obtain ⟨hb, t, ht⟩ := ih rest2 hlen2 ⟨DState.ReadData, hc, 0, 0, out ++ [(cb * 2 + 1) % 256]⟩ (by simp)
              exact ⟨hb, [(cb * 2 + 1) % 256] ++ t, by simpa using ht⟩
            · rw [if_neg h8]
              exact ih rest2 hlen2 ⟨DState.ReadData, hc, (cb * 2 + 1) % 256, bc + 1, out⟩ (by show bc + 1 < 8; omega)
          · rw [if_neg h2]
            by_cases h3 : LongThreshold < dur rate d ∨ LongThreshold < dur rate d2
            · rw [if_pos h3]
              simp only
              rw [if_neg (by omega : ¬ bc = 8)]
              exact ih rest2 hlen2 ⟨DState.FindHeader, 0, cb, bc, out⟩ (by show bc < 8; omega)
            · rw [if_neg h3]
              simp only
              rw [if_neg (by omega : ¬ bc = 8)]
              exact ih rest2 hlen2 ⟨DState.ReadData, hc, cb, bc, out⟩ (by show bc < 8; omega)


/-- Helper for claim C6: consuming one clean bit pair in `ReadData` (not the
eighth bit) shifts the bit into the accumulator from the left (`<< 1`, then OR
the bit) and increments the bit count. -/
theorem demod_bit (rate : ℕ) (b : Bool) (d1 d2 : ℤ) (l : List ℤ) (st : DemodSt)
    (hs : st.state = DState.ReadData) (henc : EncodesBit rate b d1 d2)
    (hbc : st.bitCount + 1 ≠ 8) :
    demodLoop rate (d1 :: d2 :: l) st =
      demodLoop rate l { st with
        currentByte := (st.currentByte * 2 + b.toNat) % 256
        bitCount := st.bitCount + 1 } := by
  obtain ⟨s, hc, cb, bc, out⟩ := st
  simp only at hs hbc
  subst hs
  cases b with
  | false =>
    obtain ⟨h1, h2⟩ := henc
    rw [classify_short_iff] at h1 h2
    have hz : dur rate d1 < ShortThreshold ∧ dur rate d2 < ShortThreshold := ⟨h1, h2⟩
    simp only [demodLoop]
    rw [if_pos hz]
    simp [hbc]
  | true =>
    obtain ⟨h1, h2⟩ := henc
    rw [classify_medium_iff] at h1 h2
    have hno : ¬ (dur rate d1 < ShortThreshold ∧ dur rate d2 < ShortThreshold) := by
      rintro ⟨g, -⟩; exact absurd g (not_lt.mpr h1.1)
    have ho : (ShortThreshold ≤ dur rate d1 ∧ dur rate d1 < LongThreshold) ∧
        (ShortThreshold ≤ dur rate d2 ∧ dur rate d2 < LongThreshold) := ⟨h1, h2⟩
    simp only [demodLoop]
    rw [if_neg hno, if_pos ho]
    simp [hbc]

/-- Helper for claim C6: consuming the eighth bit pair appends the completed
byte to the output and resets the accumulator and count to 0. -/
theorem demod_last_bit (rate : ℕ) (b : Bool) (d1 d2 : ℤ) (l : List ℤ) (st : DemodSt)
    (hs : st.state = DState.ReadData) (henc : EncodesBit rate b d1 d2)
    (hbc : st.bitCount = 7) :
    demodLoop rate (d1 :: d2 :: l) st =
      demodLoop rate l { st with
        currentByte := 0
        bitCount := 0
        output := st.output ++ [(st.currentByte * 2 + b.toNat) % 256] } := by
  obtain ⟨s, hc, cb, bc, out⟩ := st
  simp only at hs hbc
  subst hs; subst hbc
  cases b with
  | false =>
    obtain ⟨h1, h2⟩ := henc
    rw [classify_short_iff] at h1 h2
    have hz : dur rate d1 < ShortThreshold ∧ dur rate d2 < ShortThreshold := ⟨h1, h2⟩
    simp only [demodLoop]
    rw [if_pos hz]
    simp
  | true =>
    obtain ⟨h1, h2⟩ := henc
    rw [classify_medium_iff] at h1 h2
    have hno : ¬ (dur rate d1 < ShortThreshold ∧ dur rate d2 < ShortThreshold) := by
      rintro ⟨g, -⟩; exact absurd g (not_lt.mpr h1.1)
    have ho : (ShortThreshold ≤ dur rate d1 ∧ dur rate d1 < LongThreshold) ∧
        (ShortThreshold ≤ dur rate d2 ∧ dur rate d2 < LongThreshold) := ⟨h1, h2⟩
    simp only [demodLoop]
    rw [if_neg hno, if_pos ho]
    simp


/-- Claim C6: the Bit Accumulator invariant. First conjunct: throughout every
run, a bit count below 8 stays below 8 and the output sequence only ever grows
by appends. Second conjunct: in `ReadData` with an empty accumulator, eight
clean bit pairs assemble most-significant-bit-first — the first decoded bit
carries weight 128 — and the completed byte is appended exactly once, with the
accumulator and count reset to 0. -/
theorem C6_bit_accumulator (rate : ℕ) :
    (∀ (l : List ℤ) (st : DemodSt), st.bitCount < 8 →
        (demodLoop rate l st).bitCount < 8 ∧
          ∃ t, (demodLoop rate l st).output = st.output ++ t) ∧
    (∀ (b1 b2 b3 b4 b5 b6 b7 b8 : Bool)
        (d1 d2 d3 d4 d5 d6 d7 d8 d9 d10 d11 d12 d13 d14 d15 d16 : ℤ)
        (l : List ℤ) (st : DemodSt),
        st.state = DState.ReadData → st.bitCount = 0 → st.currentByte = 0 →
        EncodesBit rate b1 d1 d2 → EncodesBit rate b2 d3 d4 →
        EncodesBit rate b3 d5 d6 → EncodesBit rate b4 d7 d8 →
        EncodesBit rate b5 d9 d10 → EncodesBit rate b6 d11 d12 →
        EncodesBit rate b7 d13 d14 → EncodesBit rate b8 d15 d16 →
        demodLoop rate (d1 :: d2 :: d3 :: d4 :: d5 :: d6 :: d7 :: d8 :: d9 :: d10 ::
            d11 :: d12 :: d13 :: d14 :: d15 :: d16 :: l) st =
          demodLoop rate l { st with
            currentByte := 0
            bitCount := 0
            output := st.output ++ [128 * b1.toNat + 64 * b2.toNat + 32 * b3.toNat +
              16 * b4.toNat + 8 * b5.toNat + 4 * b6.toNat + 2 * b7.toNat + b8.toNat] }) := by
  constructor
  · intro l st h
    exact demod_inv rate l.length l le_rfl st h
  · intro b1 b2 b3 b4 b5 b6 b7 b8 d1 d2 d3 d4 d5 d6 d7 d8 d9 d10 d11 d12 d13 d14 d15 d16 l st
      hs h0 hcb e1 e2 e3 e4 e5 e6 e7 e8
    obtain ⟨s, hc, cb, bc, out⟩ := st
    simp only at hs h0 hcb
    subst hs; subst h0; subst hcb
    rw [demod_bit rate b1 d1 d2 _ _ rfl e1 (by simp)]
    rw [demod_bit rate b2 d3 d4 _ _ rfl e2 (by simp)]
    rw [demod_bit rate b3 d5 d6 _ _ rfl e3 (by simp)]
    rw [demod_bit rate b4 d7 d8 _ _ rfl e4 (by simp)]
    rw [demod_bit rate b5 d9 d10 _ _ rfl e5 (by simp)]
    rw [demod_bit rate b6 d11 d12 _ _ rfl e6 (by simp)]
    rw [demod_bit rate b7 d13 d14 _ _ rfl e7 (by simp)]
    rw [demod_last_bit rate b8 d15 d16 _ _ rfl e8 (by simp)]
    have t1 : b1.toNat ≤ 1 := by cases b1 <;> decide
    have t2 : b2.toNat ≤ 1 := by cases b2 <;> decide
    have t3 : b3.toNat ≤ 1 := by cases b3 <;> decide
    have t4 : b4.toNat ≤ 1 := by cases b4 <;> decide
    have t5 : b5.toNat ≤ 1 := by cases b5 <;> decide
    have t6 : b6.toNat ≤ 1 := by cases b6 <;> decide
    have t7 : b7.toNat ≤ 1 := by cases b7 <;> decide
    have t8 : b8.toNat ≤ 1 := by cases b8 <;> decide
    congr 1
    simp
    omega

/-- Claim C6 witness: the invariant instantiated on a single 400 µs interval
from the initial state, and the eight pairs encoding `10110010` assembling the
byte `0xB2` from a fresh `ReadData` state. -/
theorem C6_bit_accumulator_witness :
    ((demodLoop 10000 [4] initSt).bitCount < 8 ∧
      ∃ t, (demodLoop 10000 [4] initSt).output = initSt.output ++ t) ∧
    demodLoop 10000 [4, 4, 2, 2, 4, 4, 4, 4, 2, 2, 2, 2, 4, 4, 2, 2]
        ⟨DState.ReadData, 60, 0, 0, []⟩ =
      demodLoop 10000 [] ⟨DState.ReadData, 60, 0, 0, [178]⟩ :=
  ⟨(C6_bit_accumulator 10000).1 [4] initSt (by decide),
   by
    have h := (C6_bit_accumulator 10000).2 true false true true false false true false
      4 4 2 2 4 4 4 4 2 2 2 2 4 4 2 2 [] ⟨DState.ReadData, 60, 0, 0, []⟩
      rfl rfl rfl (by decide) (by decide) (by decide) (by decide) (by decide)
      (by decide) (by decide) (by decide)
    simpa using h⟩

/-- Claim C9: determinism of the pipeline. Two runs of the full decoding
pipeline on the same sample stream and rate produce identical results; the
embedding is a pure function of its inputs, mirroring the fact that the Go
code keeps all demodulation state in locals of `processSamples`. -/
theorem C9_deterministic (samples : List ℚ) (rate : ℕ) :
    (runTwice samples rate).1 = (runTwice samples rate).2 := rfl

/-- Claim C8: for every bits-per-sample other than 8 or 16, `Decode` fails
with the unsupported-format error and returns no byte output (Go returns
`(nil, err)`; the error value here carries no byte sequence). -/
theorem C8_unsupported_width (bps nc rate : ℕ) (bytes : List ℕ)
    (h8 : bps ≠ 8) (h16 : bps ≠ 16) :
    decode bps nc rate bytes =
      some (Except.error ("unsupported bits per sample: " ++ toString bps)) := by
  unfold decode
  rw [if_neg h8, if_neg h16]

/-- Claim C8 witness: bits-per-sample 32 is rejected. -/
theorem C8_unsupported_width_witness :
    (32 : ℕ) ≠ 8 ∧ (32 : ℕ) ≠ 16 ∧
    decode 32 1 44100 [] =
      some (Except.error ("unsupported bits per sample: " ++ toString (32 : ℕ))) :=
  ⟨by decide, by decide, C8_unsupported_width 32 1 44100 [] (by decide) (by decide)⟩

/-- Claim C10: the 16-bit path consumes PCM data in fixed 1024-value
(2048-byte) blocks; a final partial block contributes nothing, so the sample
stream only depends on the prefix of whole blocks. The second conjunct shows a
concrete loss: 1023 complete 16-bit values (2046 bytes) yield no samples at
all. -/
theorem C10_partial_block_dropped :
    (∀ (nc : ℕ) (bytes : List ℕ),
        extract16 nc bytes = extract16 nc (bytes.take (2048 * (bytes.length / 2048)))) ∧
    extract16 1 (List.replicate 2046 0) = [] := by
  constructor
  · intro nc bytes
    suffices h : ∀ (n : ℕ) (bs : List ℕ), bs.length ≤ n →
        extract16 nc bs = extract16 nc (bs.take (2048 * (bs.length / 2048))) from
      h bytes.length bytes le_rfl
    intro n
    induction n with
    | zero =>
      intro bs hl
      have hnil : bs = [] := List.length_eq_zero.mp (Nat.le_zero.mp hl)
      subst hnil; rfl
    | succ n ih =>
      intro bs hl
      by_cases hlen : bs.length < 2048
      · have h0 : bs.length / 2048 = 0 := Nat.div_eq_of_lt hlen
        rw [h0, Nat.mul_zero, List.take_zero]
        rw [extract16.eq_def, if_pos hlen]
        rw [extract16.eq_def]
        simp
      · push_neg at hlen
        have hk : 1 ≤ bs.length / 2048 := Nat.one_le_div_iff (by omega) |>.mpr hlen
        have hle : 2048 * (bs.length / 2048) ≤ bs.length := by
          calc 2048 * (bs.length / 2048) = bs.length / 2048 * 2048 := by ring
          _ ≤ bs.length := Nat.div_mul_le_self _ _
        have hlen2 : ¬ (bs.take (2048 * (bs.length / 2048))).length < 2048 := by
          simp only [List.length_take]
          omega
        rw [extract16.eq_def, if_neg (not_lt.mpr hlen)]
        conv_rhs => rw [extract16.eq_def]
        rw [if_neg hlen2]
        have htt : (bs.take (2048 * (bs.length / 2048))).take 2048 = bs.take 2048 := by
          rw [List.take_take]
          congr 1
          omega
        have hdt : (bs.take (2048 * (bs.length / 2048))).drop 2048 =
            (bs.drop 2048).take (2048 * (bs.length / 2048) - 2048) := by
          rw [List.drop_take]
        rw [htt, hdt]
        have harith : 2048 * (bs.length / 2048) - 2048 =
            2048 * ((bs.drop 2048).length / 2048) := by
          simp only [List.length_drop]
          omega
        rw [harith]
        have := ih (bs.drop 2048) (by simp; omega)
        rw [← this]
  · rw [extract16.eq_def]
    norm_num

end Wavrider
